import Mathlib

/-!
Formal model of the simulation core of the circle-race game (src/src/main.rs).

The game's `f32` arithmetic is modelled with real numbers; the `geng`
linear-algebra primitives (`Vec2` with `len`, `normalize`, `rotated`, `dot`,
`skew`, `arg`) are modelled by their standard mathematical definitions, with
Lean's convention `x / 0 = 0` standing in for the unguarded division inside
`normalize`.  All other definitions are translated directly from the source.
-/

noncomputable section

open Filter

namespace Race

/-- A 2D vector, modelling `Vec2<f32>` of the geng library. -/
@[ext]
structure Vec2 where
  x : ℝ
  y : ℝ

namespace Vec2

instance : Add Vec2 := ⟨fun a b => ⟨a.x + b.x, a.y + b.y⟩⟩

instance : Sub Vec2 := ⟨fun a b => ⟨a.x - b.x, a.y - b.y⟩⟩

instance : Neg Vec2 := ⟨fun a => ⟨-a.x, -a.y⟩⟩

instance : SMul ℝ Vec2 := ⟨fun c v => ⟨c * v.x, c * v.y⟩⟩

@[simp] theorem add_x (a b : Vec2) : (a + b).x = a.x + b.x := rfl

@[simp] theorem add_y (a b : Vec2) : (a + b).y = a.y + b.y := rfl

@[simp] theorem sub_x (a b : Vec2) : (a - b).x = a.x - b.x := rfl

@[simp] theorem sub_y (a b : Vec2) : (a - b).y = a.y - b.y := rfl

@[simp] theorem neg_x (a : Vec2) : (-a).x = -a.x := rfl

@[simp] theorem neg_y (a : Vec2) : (-a).y = -a.y := rfl

@[simp] theorem smul_x (c : ℝ) (v : Vec2) : (c • v).x = c * v.x := rfl

@[simp] theorem smul_y (c : ℝ) (v : Vec2) : (c • v).y = c * v.y := rfl

/-- `Vec2::len`: the Euclidean length. -/
def len (v : Vec2) : ℝ := Real.sqrt (v.x ^ 2 + v.y ^ 2)

/-- `Vec2::normalize`: the vector divided by its length.  The division is
unguarded just as in the source; for the zero vector Lean's `x / 0 = 0`
convention yields the zero vector. -/
def normalize (v : Vec2) : Vec2 := ⟨v.x / v.len, v.y / v.len⟩

/-- `Vec2::dot`: the scalar product. -/
def dot (a b : Vec2) : ℝ := a.x * b.x + a.y * b.y

/-- `Vec2::skew`: the 2D scalar cross (skew) product. -/
def skew (a b : Vec2) : ℝ := a.x * b.y - a.y * b.x

/-- `Vec2::rotated`: counterclockwise rotation by angle `a`. -/
def rotated (v : Vec2) (a : ℝ) : Vec2 :=
  ⟨v.x * Real.cos a - v.y * Real.sin a, v.x * Real.sin a + v.y * Real.cos a⟩

/-- `Vec2::arg`: the `atan2`-style angle of the vector, in `(-pi, pi]`. -/
def arg (v : Vec2) : ℝ := Complex.arg ⟨v.x, v.y⟩

theorem len_nonneg (v : Vec2) : 0 ≤ v.len := Real.sqrt_nonneg _

/-- The square of the length is the sum of the squared components. -/
theorem len_sq (v : Vec2) : v.len ^ 2 = v.x ^ 2 + v.y ^ 2 :=
  Real.sq_sqrt (by positivity)

/-- A nonzero-length vector normalizes to a unit vector. -/
theorem len_normalize (v : Vec2) (h : 0 < v.len) : v.normalize.len = 1 := by
  have hs : v.normalize.len ^ 2 = 1 := by
    rw [len_sq]
    show (v.x / v.len) ^ 2 + (v.y / v.len) ^ 2 = 1
    rw [div_pow, div_pow, div_add_div_same, ← len_sq]
    exact div_self (by positivity)
  nlinarith [len_nonneg v.normalize]

/-- The normalized vector is a unit vector for the dot product, or zero. -/
theorem normalize_dot_self (v : Vec2) :
    dot v.normalize v.normalize = 1 ∨ v.normalize = ⟨0, 0⟩ := by
  rcases eq_or_lt_of_le (len_nonneg v) with h | h
  · right
    unfold normalize
    rw [← h]
    simp
  · left
    unfold normalize dot
    have hx : v.x / v.len * (v.x / v.len) + v.y / v.len * (v.y / v.len)
        = (v.x ^ 2 + v.y ^ 2) / v.len ^ 2 := by ring
    rw [hx, len_sq, div_self]
    have := len_sq v
    nlinarith

end Vec2

/-- The `Circle` struct of the game: a position and a radius. -/
structure Circle where
  pos : Vec2
  r : ℝ

/-- The `Collision` struct: contact position, normal and penetration depth. -/
structure Collision where
  pos : Vec2
  normal : Vec2
  penetration : ℝ

/-- `Circle::collide`: circle-vs-circle collision test.  Translated from
src/src/main.rs lines 31-44. -/
def Circle.collide (a b : Circle) : Option Collision :=
  let delta_pos := b.pos - a.pos
  let dist := delta_pos.len
  let penetration := a.r + b.r - dist
  if 0 < penetration then
    some ⟨a.pos + a.r • delta_pos.normalize, delta_pos.normalize, penetration⟩
  else
    none

/-- The `Player` struct: the vessel's position, velocity, orientation angle
and angular velocity. -/
structure Player where
  pos : Vec2
  vel : Vec2
  rotation : ℝ
  w : ℝ

namespace Player

/-- `Player::update`: exponential damping of the linear and angular velocity
(with `dt` clamped to 1), then integration of position and orientation with
the unclamped `dt`.  Translated from src/src/main.rs lines 63-69, `DAMP = 0.9`. -/
def update (p : Player) (dt : ℝ) : Player :=
  let vel := p.vel - (0.9 * min dt 1) • p.vel
  let w := p.w - p.w * 0.9 * min dt 1
  let pos := p.pos + dt • vel
  let rotation := p.rotation + w * dt
  ⟨pos, vel, rotation, w⟩

/-- `Player::left_thruster_tube` (src lines 70-72). -/
def left_thruster_tube (p : Player) : Vec2 :=
  p.pos + Vec2.rotated ⟨1 - 0.6, 1⟩ p.rotation

/-- `Player::right_thruster_tube` (src lines 73-75). -/
def right_thruster_tube (p : Player) : Vec2 :=
  p.pos + Vec2.rotated ⟨1 - 0.6, -1⟩ p.rotation

/-- `Player::left_thruster` (src lines 76-81). -/
def left_thruster (p : Player) : Circle :=
  ⟨p.pos + Vec2.rotated ⟨1, 1⟩ p.rotation, 0.6⟩

/-- `Player::right_thruster` (src lines 82-87). -/
def right_thruster (p : Player) : Circle :=
  ⟨p.pos + Vec2.rotated ⟨1, -1⟩ p.rotation, 0.6⟩

/-- `Player::head` (src lines 88-93). -/
def head (p : Player) : Circle :=
  ⟨p.pos + Vec2.rotated ⟨-1, 0⟩ p.rotation, 0.3⟩

/-- `Player::collide`: tests the head, then the left thruster, then the right
thruster, returning the first hit (src lines 94-105). -/
def collide (p : Player) (circle : Circle) : Option Collision :=
  match (p.head).collide circle with
  | some collision => some collision
  | none =>
    match (p.left_thruster).collide circle with
    | some collision => some collision
    | none =>
      match (p.right_thruster).collide circle with
      | some collision => some collision
      | none => none

/-- `Player::apply_impulse` (src lines 106-109). -/
def apply_impulse (p : Player) (impulse : Vec2) (pos : Vec2) : Player :=
  { p with
    vel := p.vel + impulse
    w := p.w + Vec2.skew (pos - p.pos) impulse }

end Player

/-- An RGBA color value. -/
structure Rgba where
  r : ℝ
  g : ℝ
  b : ℝ
  a : ℝ

/-- The `Particle` struct (src lines 112-118). -/
structure Particle where
  pos : Vec2
  r : ℝ
  color : Rgba
  vel : Vec2
  life : ℝ

/-- `Particle::update`: advect by `vel * dt` and age by `dt`
(src lines 120-125). -/
def Particle.update (p : Particle) (dt : ℝ) : Particle :=
  { p with
    pos := p.pos + dt • p.vel
    life := p.life - dt }

/-- A particle pushed for the left thruster during the emission loop
(src lines 473-485): spawned at the left thruster tube, with velocity
`player.vel * 0.5 - force * 0.1 + jitter * 0.6` (the random jitter is a
parameter here), radius `0.2`, a fixed translucent color and life `1.0`. -/
def mk_left_particle (p : Player) (force jitter : Vec2) : Particle :=
  { pos := p.left_thruster_tube
    r := 0.2
    color := ⟨1, 0.5, 0, 0.5⟩
    vel := (0.5 : ℝ) • p.vel - (0.1 : ℝ) • force + (0.6 : ℝ) • jitter
    life := 1 }

/-- A particle pushed for the right thruster during the emission loop
(src lines 486-498). -/
def mk_right_particle (p : Player) (force jitter : Vec2) : Particle :=
  { pos := p.right_thruster_tube
    r := 0.2
    color := ⟨1, 0.5, 0, 0.5⟩
    vel := (0.5 : ℝ) • p.vel - (0.1 : ℝ) • force + (0.6 : ℝ) • jitter
    life := 1 }

open Classical in
/-- The per-tick particle bookkeeping of `Game::update` (src lines 470-503)
after the spawn loop: the newly pushed particles join the pool, every particle
is advanced by `Particle::update`, and particles whose life is not strictly
positive are removed (`retain(|p| p.life > 0.0)`).  The freshly spawned
particles are a parameter (`newly`), since their number and jitter come from
the emitter and the RNG. -/
def particles_phase (ps newly : List Particle) (dt : ℝ) : List Particle :=
  ((ps ++ newly).map (fun q => q.update dt)).filter (fun q => decide (0 < q.life))

/-- The lap/timing state of `Game`: `laps_done`, the elapsed time of the
current-lap timer, and `best_lap_time`. -/
structure LapState where
  laps : ℤ
  elapsed : ℝ
  best : Option ℝ

/-- The lap-crossing logic of `Game::update` (src lines 443-456), as a function
of the angular position `a = player.pos.arg()` before `Player::update` and
`b = player.pos.arg()` after it.  `Timer::new()` restarts the timer, modelled
by setting the elapsed time to `0`. -/
def lap_update (a b : ℝ) (s : LapState) : LapState :=
  if |b| < 1 then
    let s1 :=
      if a < 0 ∧ 0 ≤ b then
        { laps := s.laps + 1
          elapsed := 0
          best :=
            match s.best with
            | none => some s.elapsed
            | some m => if s.elapsed < m then some s.elapsed else some m }
      else s
    if 0 ≤ a ∧ b < 0 then
      { s1 with laps := s1.laps - 1 }
    else s1
  else s

/-- The lap phase of one `Game::update` tick (src lines 440-456): the angular
position is read before and after `Player::update` and fed to the crossing
logic. -/
def game_lap_tick (p : Player) (dt : ℝ) (s : LapState) : LapState :=
  lap_update p.pos.arg ((p.update dt).pos).arg s

/-- One step of the collision-resolution loop of `Game::update`
(src lines 457-468) for a single obstacle: on a hit, the vessel position is
pushed out along the negative normal by the penetration depth, and the
reflective impulse `-normal * dot(normal, vel)` is applied at the contact
position.  The sound-volume computation has no effect on the simulation state
and is omitted. -/
def resolve_one (p : Player) (o : Circle) : Player :=
  match p.collide o with
  | some collision =>
    let p1 := { p with pos := p.pos - collision.penetration • collision.normal }
    let impulse := (-(Vec2.dot collision.normal p1.vel)) • collision.normal
    p1.apply_impulse impulse collision.pos
  | none => p

/-- The collision-resolution loop of `Game::update` (src lines 457-468):
obstacles are processed sequentially in order, each against the vessel state
already corrected by the previous resolutions. -/
def resolve_obstacles (obs : List Circle) (p : Player) : Player :=
  match obs with
  | [] => p
  | o :: rest => resolve_obstacles rest (resolve_one p o)

/-- The drain loop of the particle emitter (src lines 471-472):
`while next_thruster_particle < 0.0 { next_thruster_particle += 1.0 / 100.0; ... }`.
Returns the number of emission steps together with the final accumulator. -/
def drain (acc : ℝ) : ℕ × ℝ :=
  if h : acc < 0 then
    let r := drain (acc + 1 / 100)
    (r.1 + 1, r.2)
  else (0, acc)
termination_by (Int.ceil (-100 * acc)).toNat
decreasing_by
  have e : (-100 : ℝ) * (acc + 1 / 100) = -100 * acc - ((1 : ℤ) : ℝ) := by
    push_cast
    ring
  rw [e, Int.ceil_sub_int]
  have hpos : 0 < Int.ceil ((-100 : ℝ) * acc) := Int.ceil_pos.mpr (by linarith)
  omega

/-- Closed form of the drain loop: it runs `max 0 (ceil (-100 * acc))` steps and
adds `1/100` to the accumulator for each step. -/
theorem drain_eq (N : ℕ) :
    ∀ acc : ℝ, (Int.ceil (-100 * acc)).toNat = N →
      drain acc = (N, acc + N / 100) := by
  induction N with
  | zero =>
    intro acc h
    have hnn : ¬ acc < 0 := by
      intro hlt
      have hpos : 0 < Int.ceil ((-100 : ℝ) * acc) := Int.ceil_pos.mpr (by linarith)
      omega
    rw [drain, dif_neg hnn]
    simp
  | succ N ih =>
    intro acc h
    have hlt : acc < 0 := by
      by_contra hge
      push_neg at hge
      have hle : Int.ceil ((-100 : ℝ) * acc) ≤ 0 :=
        Int.ceil_le.mpr (by push_cast; nlinarith)
      omega
    have e : (-100 : ℝ) * (acc + 1 / 100) = -100 * acc - ((1 : ℤ) : ℝ) := by
      push_cast
      ring
    have hc : (Int.ceil (-100 * (acc + 1 / 100))).toNat = N := by
      rw [e, Int.ceil_sub_int]
      omega
    have hrec := ih (acc + 1 / 100) hc
    rw [drain, dif_pos hlt]
    simp only [hrec]
    refine Prod.ext rfl ?_
    push_cast
    ring

theorem drain_fst (acc : ℝ) :
    (drain acc).1 = (Int.ceil (-100 * acc)).toNat := by
  rw [drain_eq (Int.ceil (-100 * acc)).toNat acc rfl]

theorem drain_snd (acc : ℝ) :
    (drain acc).2 = acc + ((Int.ceil (-100 * acc)).toNat : ℝ) / 100 := by
  rw [drain_eq (Int.ceil (-100 * acc)).toNat acc rfl]

/-- The accumulator is non-negative after a drain of a non-positively-started
accumulator, and in general whenever it started `≥ -n/100` away. -/
theorem drain_snd_nonneg (acc : ℝ) (h : acc < 0) : 0 ≤ (drain acc).2 := by
  rw [drain_snd]
  have hpos : 0 < Int.ceil ((-100 : ℝ) * acc) := Int.ceil_pos.mpr (by linarith)
  have hle : (-100 : ℝ) * acc ≤ Int.ceil ((-100 : ℝ) * acc) := Int.le_ceil _
  have hcast : ((Int.ceil ((-100 : ℝ) * acc)).toNat : ℝ)
      = ((Int.ceil ((-100 : ℝ) * acc) : ℤ) : ℝ) := by
    exact_mod_cast congrArg Int.cast (Int.toNat_of_nonneg hpos.le)
  rw [hcast]
  linarith

/-- One simulated frame of the particle emitter (`Game::update`,
src lines 470-499): a triple of the tick's `dt`, the left thruster force and
the right thruster force. -/
def emitter_run : List (ℝ × Vec2 × Vec2) → ℝ → ℕ × ℝ
  | [], acc => (0, acc)
  | (dt, lf, rf) :: rest, acc =>
    let d := drain (acc - dt)
    let spawned := (if 0.1 < lf.len then d.1 else 0) + (if 0.1 < rf.len then d.1 else 0)
    let r := emitter_run rest d.2
    (spawned + r.1, r.2)

/-- A tick sequence during which only the left thruster is commanded above the
spawn threshold, with non-negative frame times. -/
def left_only_ticks (ticks : List (ℝ × Vec2 × Vec2)) : Prop :=
  ∀ t ∈ ticks, 0 ≤ t.1 ∧ 0.1 < t.2.1.len ∧ t.2.2.len ≤ 0.1

/-- The number of particles spawned by the emitter over a sequence of
left-thruster-only ticks depends only on the total elapsed time and the
initial accumulator. -/
theorem emitter_run_count (ticks : List (ℝ × Vec2 × Vec2)) :
    ∀ acc : ℝ, 0 ≤ acc → left_only_ticks ticks →
      (emitter_run ticks acc).1
        = (Int.ceil (((ticks.map Prod.fst).sum - acc) * 100)).toNat := by
  induction ticks with
  | nil =>
    intro acc h0 _
    simp only [emitter_run, List.map_nil, List.sum_nil]
    have hle : Int.ceil ((0 - acc) * 100) ≤ 0 := Int.ceil_le.mpr (by push_cast; nlinarith)
    omega
  | cons t rest ih =>
    obtain ⟨dt, lf, rf⟩ := t
    intro acc h0 hL
    have hmem := hL (dt, lf, rf) (List.mem_cons_self _ _)
    have hdt : 0 ≤ dt := hmem.1
    have hlf : (0.1 : ℝ) < lf.len := hmem.2.1
    have hrf : ¬ (0.1 : ℝ) < rf.len := not_lt.mpr hmem.2.2
    have hrest : left_only_ticks rest := fun u hu => hL u (List.mem_cons_of_mem _ hu)
    have hd2 : 0 ≤ (drain (acc - dt)).2 := by
      rcases lt_or_le (acc - dt) 0 with hneg | hge
      · exact drain_snd_nonneg _ hneg
      · rw [drain_snd]
        have hc : (0 : ℝ) ≤ ((Int.ceil (-100 * (acc - dt))).toNat : ℝ) := Nat.cast_nonneg _
        linarith
    simp only [emitter_run, if_pos hlf, if_neg hrf, add_zero, List.map_cons, List.sum_cons]
    rw [ih _ hd2 hrest, drain_fst, drain_snd]
    set S := (rest.map Prod.fst).sum with hS
    have hS0 : 0 ≤ S := by
      apply List.sum_nonneg
      intro x hx
      obtain ⟨u, hu, rfl⟩ := List.mem_map.mp hx
      exact (hrest u hu).1
    set k := Int.ceil ((-100 : ℝ) * (acc - dt)) with hk
    rcases lt_or_le (acc - dt) 0 with hneg | hge
    · have hkpos : 0 < k := Int.ceil_pos.mpr (by linarith)
      have htk : ((k.toNat : ℕ) : ℝ) = (k : ℝ) := by
        exact_mod_cast congrArg Int.cast (Int.toNat_of_nonneg hkpos.le)
      have e2 : Int.ceil ((S - (acc - dt + (k.toNat : ℝ) / 100)) * 100)
          = Int.ceil ((dt + S - acc) * 100) - k := by
        rw [show (S - (acc - dt + (k.toNat : ℝ) / 100)) * 100
            = (dt + S - acc) * 100 - (k : ℝ) from by rw [htk]; ring]
        exact_mod_cast Int.ceil_sub_int ((dt + S - acc) * 100) k
      rw [e2]
      have hkub : (k : ℝ) < -100 * (acc - dt) + 1 := Int.ceil_lt_add_one _
      have hmk : 0 ≤ Int.ceil ((dt + S - acc) * 100) - k := by
        have hge2 : (dt + S - acc) * 100 ≤ ((Int.ceil ((dt + S - acc) * 100) : ℤ) : ℝ) :=
          Int.le_ceil _
        have h2 : (-1 : ℝ) < ((Int.ceil ((dt + S - acc) * 100) - k : ℤ) : ℝ) := by
          push_cast
          nlinarith
        have h3 : (-1 : ℤ) < Int.ceil ((dt + S - acc) * 100) - k := by exact_mod_cast h2
        omega
      omega
    · have hk0 : k ≤ 0 := Int.ceil_le.mpr (by push_cast; nlinarith)
      have hkz : k.toNat = 0 := by omega
      rw [hkz]
      simp only [Nat.cast_zero, zero_div, add_zero, zero_add]
      congr 2
      ring

/-- Iterated `Player::update` along a sequence of frame times. -/
def player_iter (dt : ℕ → ℝ) (p : Player) : ℕ → Player
  | 0 => p
  | n + 1 => (player_iter dt p n).update (dt n)

theorem len_zero_vec : (⟨0, 0⟩ : Vec2).len = 0 := by
  simp [Vec2.len]

/-- Claim C3: `Player::update(dt)` damps the velocity and angular velocity by
the factor `1 - 0.9 * min(dt, 1)` and then integrates position and orientation
with the damped velocities and the unclamped `dt`. -/
theorem c3_update_formula (p : Player) (dt : ℝ) :
    (p.update dt).vel = (1 - 0.9 * min dt 1) • p.vel ∧
    (p.update dt).w = (1 - 0.9 * min dt 1) * p.w ∧
    (p.update dt).pos = p.pos + dt • ((1 - 0.9 * min dt 1) • p.vel) ∧
    (p.update dt).rotation = p.rotation + ((1 - 0.9 * min dt 1) * p.w) * dt := by
  refine ⟨?_, ?_, ?_, ?_⟩
  · apply Vec2.ext <;>
      simp only [Player.update, Vec2.add_x, Vec2.add_y, Vec2.sub_x, Vec2.sub_y,
        Vec2.smul_x, Vec2.smul_y] <;> ring
  · simp only [Player.update]
    ring
  · apply Vec2.ext <;>
      simp only [Player.update, Vec2.add_x, Vec2.add_y, Vec2.sub_x, Vec2.sub_y,
        Vec2.smul_x, Vec2.smul_y] <;> ring
  · simp only [Player.update]
    ring

/-- Claim C5: `Player::apply_impulse(i, p)` adds `i` to the velocity, adds the
skew product of the lever arm `p - position` with `i` to the angular velocity,
and leaves position and orientation unchanged. -/
theorem c5_apply_impulse (p : Player) (i q : Vec2) :
    (p.apply_impulse i q).vel = p.vel + i ∧
    (p.apply_impulse i q).w = p.w + Vec2.skew (q - p.pos) i ∧
    (p.apply_impulse i q).pos = p.pos ∧
    (p.apply_impulse i q).rotation = p.rotation :=
  ⟨rfl, rfl, rfl, rfl⟩

/-- Claim C1 (amended): for `dist < A.r + B.r`, `collide` returns the collision
with contact `A.pos + normalize(d) * A.r`, normal `normalize(d)` and positive
penetration `A.r + B.r - dist`, where the normal is a unit vector whenever
`dist > 0`; for `dist >= A.r + B.r` it returns none. -/
theorem c1_amended (a b : Circle) :
    (Vec2.len (b.pos - a.pos) < a.r + b.r →
      a.collide b = some ⟨a.pos + a.r • (b.pos - a.pos).normalize,
        (b.pos - a.pos).normalize, a.r + b.r - (b.pos - a.pos).len⟩ ∧
      0 < a.r + b.r - (b.pos - a.pos).len ∧
      (0 < (b.pos - a.pos).len → ((b.pos - a.pos).normalize).len = 1)) ∧
    (a.r + b.r ≤ (b.pos - a.pos).len → a.collide b = none) := by
  constructor
  · intro h
    have hp : 0 < a.r + b.r - (b.pos - a.pos).len := by linarith
    refine ⟨?_, hp, fun h0 => Vec2.len_normalize _ h0⟩
    simp only [Circle.collide]
    rw [if_pos hp]
  · intro h
    simp only [Circle.collide]
    rw [if_neg (by linarith : ¬ 0 < a.r + b.r - (b.pos - a.pos).len)]

/-- Claim C1 counterexample: for two concentric unit circles the distance is
`0 < 1 + 1`, so a collision is returned, but its normal is the zero vector,
not a unit vector as the claim states. -/
theorem c1_counterexample :
    Vec2.len ((⟨0, 0⟩ : Vec2) - ⟨0, 0⟩) < (1 : ℝ) + 1 ∧
    Circle.collide ⟨⟨0, 0⟩, 1⟩ ⟨⟨0, 0⟩, 1⟩ = some ⟨⟨0, 0⟩, ⟨0, 0⟩, 2⟩ ∧
    Vec2.len ⟨0, 0⟩ ≠ 1 := by
  have hz : Vec2.len ((⟨0, 0⟩ : Vec2) - ⟨0, 0⟩) = 0 := by
    simp [Vec2.len]
  refine ⟨by rw [hz]; norm_num, ?_, by rw [len_zero_vec]; norm_num⟩
  simp only [Circle.collide]
  rw [if_pos (show (0 : ℝ) < 1 + 1 - ((⟨0, 0⟩ : Vec2) - ⟨0, 0⟩).len by rw [hz]; norm_num)]
  simp [Vec2.normalize, hz, Vec2.ext_iff]
  norm_num

/-- Claim C1 witness: two overlapping circles on the x-axis. -/
theorem c1_witness :
    Circle.collide ⟨⟨0, 0⟩, 1⟩ ⟨⟨1, 0⟩, 1⟩ = some ⟨⟨1, 0⟩, ⟨1, 0⟩, 1⟩ := by
  have hlen : Vec2.len ((⟨1, 0⟩ : Vec2) - ⟨0, 0⟩) = 1 := by
    simp [Vec2.len]
  have h := (c1_amended ⟨⟨0, 0⟩, 1⟩ ⟨⟨1, 0⟩, 1⟩).1 (by simp only [hlen]; norm_num)
  rw [h.1]
  simp [Vec2.normalize, hlen, Vec2.ext_iff]

/-- Claim C10: for concentric circles with positive radii, `collide` takes the
collision branch with `penetration = A.r + B.r` and a zero (hence non-unit)
normal produced by the unguarded division; `none` is returned only when the
center distance is at least `A.r + B.r`. -/
theorem c10_degenerate (a b : Circle) (hpos : b.pos = a.pos)
    (ha : 0 < a.r) (hb : 0 < b.r) :
    a.collide b = some ⟨a.pos, ⟨0, 0⟩, a.r + b.r⟩ ∧
    Vec2.len ⟨0, 0⟩ ≠ 1 ∧
    (∀ c d : Circle, c.collide d = none → c.r + d.r ≤ Vec2.len (d.pos - c.pos)) := by
  have hdelta : b.pos - a.pos = (⟨0, 0⟩ : Vec2) := by
    rw [hpos]
    apply Vec2.ext <;> simp
  refine ⟨?_, by rw [len_zero_vec]; norm_num, ?_⟩
  · simp only [Circle.collide, hdelta, len_zero_vec]
    rw [if_pos (by linarith)]
    simp [Vec2.normalize, len_zero_vec, Vec2.ext_iff]
  · intro c d h
    by_contra hlt
    push_neg at hlt
    simp only [Circle.collide] at h
    rw [if_pos (by linarith)] at h
    exact Option.noConfusion h

/-- Claim C10 witness: two concentric circles of radius 1 at `(2, 3)`. -/
theorem c10_witness :
    Circle.collide ⟨⟨2, 3⟩, 1⟩ ⟨⟨2, 3⟩, 1⟩ = some ⟨⟨2, 3⟩, ⟨0, 0⟩, 1 + 1⟩ ∧
    Vec2.len ⟨0, 0⟩ ≠ 1 := by
  have h := c10_degenerate ⟨⟨2, 3⟩, 1⟩ ⟨⟨2, 3⟩, 1⟩ rfl (by norm_num) (by norm_num)
  exact ⟨h.1, h.2.1⟩

/-- Claim C6: the vessel's collision test against an external circle tests the
nose circle (offset `(-1,0)`, radius `0.3`), then the left thruster circle
(offset `(1,1)`, radius `0.6`), then the right thruster circle (offset
`(1,-1)`, radius `0.6`), in that fixed order, returning the first hit. -/
theorem c6_collide_order (p : Player) (c : Circle) :
    p.head = ⟨p.pos + Vec2.rotated ⟨-1, 0⟩ p.rotation, 0.3⟩ ∧
    p.left_thruster = ⟨p.pos + Vec2.rotated ⟨1, 1⟩ p.rotation, 0.6⟩ ∧
    p.right_thruster = ⟨p.pos + Vec2.rotated ⟨1, -1⟩ p.rotation, 0.6⟩ ∧
    (∀ col, (p.head).collide c = some col → p.collide c = some col) ∧
    ((p.head).collide c = none →
      ∀ col, (p.left_thruster).collide c = some col → p.collide c = some col) ∧
    ((p.head).collide c = none → (p.left_thruster).collide c = none →
      p.collide c = (p.right_thruster).collide c) := by
  refine ⟨rfl, rfl, rfl, ?_, ?_, ?_⟩
  · intro col h
    unfold Player.collide
    rw [h]
  · intro h col h2
    unfold Player.collide
    rw [h, h2]
  · intro h h2
    unfold Player.collide
    rw [h, h2]
    cases hr : (p.right_thruster).collide c <;> simp

/-- Claim C6 witness: a vessel at the origin with orientation 0; the test
circle misses the nose but hits the left thruster, so the left thruster's
collision is returned. -/
theorem c6_witness :
    Player.collide ⟨⟨0, 0⟩, ⟨0, 0⟩, 0, 0⟩ ⟨⟨1, 2⟩, 0.5⟩
      = some ⟨⟨1, 1.6⟩, ⟨0, 1⟩, 0.1⟩ := by
  have hhd : Player.head ⟨⟨0, 0⟩, ⟨0, 0⟩, 0, 0⟩ = ⟨⟨-1, 0⟩, 0.3⟩ := by
    unfold Player.head
    congr 1
    apply Vec2.ext <;> simp [Vec2.rotated]
  have hlt : Player.left_thruster ⟨⟨0, 0⟩, ⟨0, 0⟩, 0, 0⟩ = ⟨⟨1, 1⟩, 0.6⟩ := by
    unfold Player.left_thruster
    congr 1
    apply Vec2.ext <;> simp [Vec2.rotated]
  have h8 : (0.8 : ℝ) ≤ Real.sqrt 8 := by
    rw [show (0.8 : ℝ) = Real.sqrt (0.8 ^ 2) from (Real.sqrt_sq (by norm_num)).symm]
    exact Real.sqrt_le_sqrt (by norm_num)
  have hlen1 : Vec2.len ((⟨1, 2⟩ : Vec2) - ⟨-1, 0⟩) = Real.sqrt 8 := by
    simp only [Vec2.len, Vec2.sub_x, Vec2.sub_y]
    norm_num
  have hhead : Circle.collide ⟨⟨-1, 0⟩, 0.3⟩ ⟨⟨1, 2⟩, 0.5⟩ = none := by
    simp only [Circle.collide]
    rw [if_neg (show ¬ (0 : ℝ) < 0.3 + 0.5 - ((⟨1, 2⟩ : Vec2) - ⟨-1, 0⟩).len by
      rw [hlen1]; push_neg; linarith)]
  have hlen2 : Vec2.len ((⟨1, 2⟩ : Vec2) - ⟨1, 1⟩) = 1 := by
    simp only [Vec2.len, Vec2.sub_x, Vec2.sub_y]
    norm_num
  have hleft : Circle.collide ⟨⟨1, 1⟩, 0.6⟩ ⟨⟨1, 2⟩, 0.5⟩ = some ⟨⟨1, 1.6⟩, ⟨0, 1⟩, 0.1⟩ := by
    simp only [Circle.collide]
    rw [if_pos (show (0 : ℝ) < 0.6 + 0.5 - ((⟨1, 2⟩ : Vec2) - ⟨1, 1⟩).len by
      rw [hlen2]; norm_num)]
    simp [Vec2.normalize, hlen2, Vec2.ext_iff]
    norm_num
  have hc := c6_collide_order ⟨⟨0, 0⟩, ⟨0, 0⟩, 0, 0⟩ ⟨⟨1, 2⟩, 0.5⟩
  exact hc.2.2.2.2.1 (by rw [hhd]; exact hhead) _ (by rw [hlt]; exact hleft)

/-- Claim C2 (amended): the lap counter increments exactly when the previous
angle is strictly negative, the new angle is non-negative and only the NEW
angle is within 1 radian of zero (the previous angle is not gated); it
decrements exactly when the previous angle is non-negative, the new angle is
negative and the new angle is within 1 radian of zero; otherwise the lap state
is unchanged.  On increment the timer restarts and the best lap time is
updated exactly when absent or beaten strictly. -/
theorem c2_amended (a b : ℝ) (s : LapState) :
    (|b| < 1 → a < 0 → 0 ≤ b →
      lap_update a b s = ⟨s.laps + 1, 0,
        match s.best with
        | none => some s.elapsed
        | some m => if s.elapsed < m then some s.elapsed else some m⟩) ∧
    (|b| < 1 → 0 ≤ a → b < 0 →
      lap_update a b s = ⟨s.laps - 1, s.elapsed, s.best⟩) ∧
    (¬ (|b| < 1 ∧ ((a < 0 ∧ 0 ≤ b) ∨ (0 ≤ a ∧ b < 0))) → lap_update a b s = s) := by
  refine ⟨?_, ?_, ?_⟩
  · intro hb ha hb0
    simp only [lap_update]
    rw [if_pos hb, if_neg (show ¬ (0 ≤ a ∧ b < 0) from fun h => absurd h.1 (not_le.mpr ha)),
      if_pos (⟨ha, hb0⟩ : a < 0 ∧ 0 ≤ b)]
  · intro hb ha0 hbneg
    simp only [lap_update]
    rw [if_pos hb, if_pos (⟨ha0, hbneg⟩ : 0 ≤ a ∧ b < 0),
      if_neg (show ¬ (a < 0 ∧ 0 ≤ b) from fun h => absurd h.1 (not_lt.mpr ha0))]
  · intro hno
    by_cases hb : |b| < 1
    · have hdisj : ¬ ((a < 0 ∧ 0 ≤ b) ∨ (0 ≤ a ∧ b < 0)) := fun hd => hno ⟨hb, hd⟩
      simp only [lap_update]
      rw [if_pos hb, if_neg (fun h => hdisj (Or.inr h)), if_neg (fun h => hdisj (Or.inl h))]
    · simp only [lap_update]
      rw [if_neg hb]

/-- Claim C2 counterexample: previous angle exactly `0` (negative-or-equal-zero),
new angle `1/2` (non-negative), both within 1 radian of zero — the claim
demands an increment, but the code's strict `last_arg < 0.0` test leaves the
lap counter unchanged. -/
theorem c2_counterexample :
    ((0 : ℝ) ≤ 0 ∧ (0 : ℝ) ≤ (1 / 2 : ℝ) ∧ |(0 : ℝ)| < 1 ∧ |(1 / 2 : ℝ)| < 1) ∧
    (lap_update 0 (1 / 2) ⟨0, 5, none⟩).laps = 0 ∧ ((0 : ℤ) ≠ 0 + 1) := by
  refine ⟨⟨le_refl 0, by norm_num, by norm_num,
    by rw [abs_lt]; constructor <;> norm_num⟩, ?_, by norm_num⟩
  simp only [lap_update]
  rw [if_pos (show |(1 / 2 : ℝ)| < 1 by rw [abs_lt]; constructor <;> norm_num),
    if_neg (show ¬ ((0 : ℝ) ≤ 0 ∧ (1 / 2 : ℝ) < 0) by rintro ⟨-, h⟩; norm_num at h),
    if_neg (show ¬ ((0 : ℝ) < 0 ∧ (0 : ℝ) ≤ 1 / 2) by rintro ⟨h, -⟩; exact lt_irrefl _ h)]

/-- Claim C2 witness: a crossing from `-1/2` to `1/2` increments the counter,
restarts the timer and records the elapsed `7` as the new best (beating `9`). -/
theorem c2_witness :
    lap_update (-(1 / 2)) (1 / 2) ⟨3, 7, some 9⟩ = ⟨3 + 1, 0, some 7⟩ := by
  have h := (c2_amended (-(1 / 2)) (1 / 2) ⟨3, 7, some 9⟩).1
    (by rw [abs_lt]; constructor <;> norm_num) (by norm_num) (by norm_num)
  rw [h]
  norm_num

/-- The normal of a circle-circle collision is the normalized center delta. -/
theorem normal_of_circle_collide (a b : Circle) (c : Collision)
    (h : a.collide b = some c) : c.normal = (b.pos - a.pos).normalize := by
  simp only [Circle.collide] at h
  by_cases hp : 0 < a.r + b.r - (b.pos - a.pos).len
  · rw [if_pos hp] at h
    injection h with h1
    rw [← h1]
  · rw [if_neg hp] at h
    exact absurd h (by simp)

/-- The normal of any vessel-obstacle collision is a unit vector for the dot
product, or the zero vector in the degenerate concentric case. -/
theorem normal_unit_of_player_collide (p : Player) (o : Circle) (c : Collision)
    (h : p.collide o = some c) :
    Vec2.dot c.normal c.normal = 1 ∨ c.normal = ⟨0, 0⟩ := by
  unfold Player.collide at h
  cases h1 : (p.head).collide o with
  | some col =>
    rw [h1] at h
    simp only at h
    injection h with h4
    rw [← h4, normal_of_circle_collide _ _ _ h1]
    exact Vec2.normalize_dot_self _
  | none =>
    rw [h1] at h
    simp only at h
    cases h2 : (p.left_thruster).collide o with
    | some col =>
      rw [h2] at h
      simp only at h
      injection h with h4
      rw [← h4, normal_of_circle_collide _ _ _ h2]
      exact Vec2.normalize_dot_self _
    | none =>
      rw [h2] at h
      simp only at h
      cases h3 : (p.right_thruster).collide o with
      | some col =>
        rw [h3] at h
        simp only at h
        injection h with h4
        rw [← h4, normal_of_circle_collide _ _ _ h3]
        exact Vec2.normalize_dot_self _
      | none =>
        rw [h3] at h
        simp only at h
        exact absurd h (by simp)

/-- Claim C4: on a hit the vessel is pushed out along the negative normal by
the penetration depth, the reflective impulse `-normal * dot(normal, vel)` is
applied at the contact point (removing the normal component of the velocity
while preserving the tangential component), obstacles are resolved
sequentially in order against the already-corrected state, and a non-hit
leaves the vessel unchanged. -/
theorem c4_resolution (p : Player) (o : Circle) (rest : List Circle) :
    (∀ c, p.collide o = some c →
      (resolve_one p o).pos = p.pos - c.penetration • c.normal ∧
      (resolve_one p o).vel = p.vel + (-(Vec2.dot c.normal p.vel)) • c.normal ∧
      (resolve_one p o).rotation = p.rotation ∧
      (resolve_one p o).w = p.w + Vec2.skew (c.pos - (p.pos - c.penetration • c.normal))
        ((-(Vec2.dot c.normal p.vel)) • c.normal) ∧
      Vec2.dot c.normal (resolve_one p o).vel = 0 ∧
      (resolve_one p o).vel - (Vec2.dot c.normal ((resolve_one p o).vel)) • c.normal
        = p.vel - (Vec2.dot c.normal p.vel) • c.normal) ∧
    (p.collide o = none → resolve_one p o = p) ∧
    resolve_obstacles (o :: rest) p = resolve_obstacles rest (resolve_one p o) := by
  refine ⟨?_, ?_, rfl⟩
  · intro c hc
    have hres : resolve_one p o = Player.apply_impulse
        { p with pos := p.pos - c.penetration • c.normal }
        ((-(Vec2.dot c.normal p.vel)) • c.normal) c.pos := by
      unfold resolve_one
      rw [hc]
    have hunit := normal_unit_of_player_collide p o c hc
    have hvel : (resolve_one p o).vel = p.vel + (-(Vec2.dot c.normal p.vel)) • c.normal := by
      rw [hres]
      rfl
    have hdot : Vec2.dot c.normal (resolve_one p o).vel = 0 := by
      rw [hvel]
      rcases hunit with h1 | h1
      · simp only [Vec2.dot, Vec2.add_x, Vec2.add_y, Vec2.smul_x, Vec2.smul_y] at h1 ⊢
        linear_combination (-(c.normal.x * p.vel.x + c.normal.y * p.vel.y)) * h1
      · rw [h1]
        simp [Vec2.dot]
    refine ⟨by rw [hres]; rfl, hvel, by rw [hres]; rfl, by rw [hres]; rfl, hdot, ?_⟩
    rw [hdot, hvel]
    apply Vec2.ext <;> simp <;> ring
  · intro hc
    unfold resolve_one
    rw [hc]

/-- Claim C4 witness: a vessel whose nose overlaps an obstacle on the x-axis;
after resolution the position is pushed out by `0.3 * (-1, 0)` and the
velocity has no component along the collision normal. -/
theorem c4_witness :
    (resolve_one ⟨⟨0, 0⟩, ⟨-2, 3⟩, 0, 0⟩ ⟨⟨-1.5, 0⟩, 0.5⟩).pos
      = (⟨0, 0⟩ : Vec2) - (0.3 : ℝ) • ⟨-1, 0⟩ ∧
    Vec2.dot ⟨-1, 0⟩ (resolve_one ⟨⟨0, 0⟩, ⟨-2, 3⟩, 0, 0⟩ ⟨⟨-1.5, 0⟩, 0.5⟩).vel = 0 := by
  have hhd : Player.head ⟨⟨0, 0⟩, ⟨-2, 3⟩, 0, 0⟩ = ⟨⟨-1, 0⟩, 0.3⟩ := by
    unfold Player.head
    congr 1
    apply Vec2.ext <;> simp [Vec2.rotated]
  have hlen : Vec2.len ((⟨-1.5, 0⟩ : Vec2) - ⟨-1, 0⟩) = 0.5 := by
    simp only [Vec2.len, Vec2.sub_x, Vec2.sub_y]
    rw [show ((-1.5 : ℝ) - -1) ^ 2 + ((0 : ℝ) - 0) ^ 2 = (0.5 : ℝ) ^ 2 by norm_num]
    exact Real.sqrt_sq (by norm_num)
  have hheadcol : Circle.collide ⟨⟨-1, 0⟩, 0.3⟩ ⟨⟨-1.5, 0⟩, 0.5⟩
      = some ⟨⟨-1.3, 0⟩, ⟨-1, 0⟩, 0.3⟩ := by
    simp only [Circle.collide]
    rw [if_pos (show (0 : ℝ) < 0.3 + 0.5 - ((⟨-1.5, 0⟩ : Vec2) - ⟨-1, 0⟩).len by
      rw [hlen]; norm_num)]
    simp [Vec2.normalize, hlen, Vec2.ext_iff]
    norm_num
  have hc : Player.collide ⟨⟨0, 0⟩, ⟨-2, 3⟩, 0, 0⟩ ⟨⟨-1.5, 0⟩, 0.5⟩
      = some ⟨⟨-1.3, 0⟩, ⟨-1, 0⟩, 0.3⟩ := by
    unfold Player.collide
    rw [hhd, hheadcol]
  have h := (c4_resolution ⟨⟨0, 0⟩, ⟨-2, 3⟩, 0, 0⟩ ⟨⟨-1.5, 0⟩, 0.5⟩ []).1
    ⟨⟨-1.3, 0⟩, ⟨-1, 0⟩, 0.3⟩ hc
  exact ⟨h.1, h.2.2.2.2.1⟩

/-- Claim C8: every particle is spawned with life exactly 1 second; each tick
particles advect by `vel * dt` and age by `dt`; and after the prune step every
particle remaining in the pool has strictly positive life. -/
theorem c8_particle_invariant (pl : Player) (force jitter : Vec2)
    (ps newly : List Particle) (dt : ℝ) (q : Particle) :
    (mk_left_particle pl force jitter).life = 1 ∧
    (mk_right_particle pl force jitter).life = 1 ∧
    (∀ u : Particle, u.update dt = { u with pos := u.pos + dt • u.vel, life := u.life - dt }) ∧
    (q ∈ particles_phase ps newly dt → 0 < q.life) := by
  refine ⟨rfl, rfl, fun u => rfl, ?_⟩
  intro hq
  unfold particles_phase at hq
  have hd := List.of_mem_filter hq
  simpa using hd

/-- Claim C8 witness: a particle with life `2` survives a `dt = 1` tick with
life `1 > 0`. -/
theorem c8_witness :
    (0 : ℝ) < ((⟨⟨0, 0⟩, 0.2, ⟨1, 0.5, 0, 0.5⟩, ⟨0, 0⟩, 1⟩ : Particle)).life := by
  apply (c8_particle_invariant ⟨⟨0, 0⟩, ⟨0, 0⟩, 0, 0⟩ ⟨0, 0⟩ ⟨0, 0⟩
    [⟨⟨0, 0⟩, 0.2, ⟨1, 0.5, 0, 0.5⟩, ⟨0, 0⟩, 2⟩] [] 1 _).2.2.2
  simp [particles_phase, Particle.update, List.filter, Vec2.ext_iff]
  norm_num

/-- Claim C7: over any sequence of non-negative ticks summing to 1 second with
the left thruster's force above the spawn threshold and the right thruster's
below it throughout, exactly 100 particles are spawned from the initial
accumulator 0; and in general the spawn count depends only on the total
elapsed time and the initial accumulator, not on how time is divided into
ticks. -/
theorem c7_emission (ticks : List (ℝ × Vec2 × Vec2))
    (hA : left_only_ticks ticks)
    (hsum : (ticks.map Prod.fst).sum = 1) :
    (emitter_run ticks 0).1 = 100 ∧
    (∀ (acc : ℝ) (t1 t2 : List (ℝ × Vec2 × Vec2)), 0 ≤ acc →
      left_only_ticks t1 → left_only_ticks t2 →
      (t1.map Prod.fst).sum = (t2.map Prod.fst).sum →
      (emitter_run t1 acc).1 = (emitter_run t2 acc).1) := by
  constructor
  · rw [emitter_run_count ticks 0 le_rfl hA, hsum]
    rw [show ((1 : ℝ) - 0) * 100 = ((100 : ℤ) : ℝ) by norm_num, Int.ceil_intCast]
    rfl
  · intro acc t1 t2 hacc h1 h2 hs
    rw [emitter_run_count t1 acc hacc h1, emitter_run_count t2 acc hacc h2, hs]

/-- Claim C7 witness: a single 1-second tick with the left thruster at force
`(1, 0)` spawns exactly 100 particles. -/
theorem c7_witness :
    (emitter_run [(1, ⟨1, 0⟩, ⟨0, 0⟩)] 0).1 = 100 := by
  have hA : left_only_ticks [((1 : ℝ), (⟨1, 0⟩ : Vec2), (⟨0, 0⟩ : Vec2))] := by
    intro t ht
    rw [List.mem_singleton] at ht
    subst ht
    refine ⟨by norm_num, ?_, ?_⟩
    · show (0.1 : ℝ) < Vec2.len ⟨1, 0⟩
      rw [show Vec2.len ⟨1, 0⟩ = 1 by simp [Vec2.len]]
      norm_num
    · show Vec2.len ⟨0, 0⟩ ≤ 0.1
      rw [len_zero_vec]
      norm_num
  exact (c7_emission _ hA (by simp)).1

/-- A scalar sequence multiplied each step by a positive factor bounded above
by `r < 1` is non-increasing in magnitude, keeps its sign, and its magnitude
tends to zero. -/
theorem scalar_decay (c u : ℕ → ℝ) (r : ℝ) (hr : r < 1)
    (hc0 : ∀ n, 0 < c n) (hcr : ∀ n, c n ≤ r)
    (hu : ∀ n, u (n + 1) = c n * u n) :
    (∀ n, |u (n + 1)| ≤ |u n|) ∧
    (∀ n, (0 < u n ↔ 0 < u 0) ∧ (u n < 0 ↔ u 0 < 0)) ∧
    Tendsto (fun n => |u n|) atTop (nhds 0) := by
  have hr0 : 0 < r := lt_of_lt_of_le (hc0 0) (hcr 0)
  have hmono : ∀ n, |u (n + 1)| ≤ |u n| := by
    intro n
    rw [hu n, abs_mul, abs_of_pos (hc0 n)]
    calc c n * |u n| ≤ 1 * |u n| := by
          apply mul_le_mul_of_nonneg_right _ (abs_nonneg _)
          linarith [hcr n]
      _ = |u n| := one_mul _
  have hsign : ∀ n, (0 < u n ↔ 0 < u 0) ∧ (u n < 0 ↔ u 0 < 0) := by
    intro n
    induction n with
    | zero => exact ⟨Iff.rfl, Iff.rfl⟩
    | succ k ih =>
      rw [hu k]
      have h0 : 0 < c k * u k ↔ 0 < u k := by
        constructor
        · intro h
          by_contra hge
          push_neg at hge
          nlinarith [hc0 k]
        · exact fun h => mul_pos (hc0 k) h
      have h1 : c k * u k < 0 ↔ u k < 0 := by
        constructor
        · intro h
          by_contra hge
          push_neg at hge
          nlinarith [hc0 k]
        · exact fun h => mul_neg_of_pos_of_neg (hc0 k) h
      exact ⟨h0.trans ih.1, h1.trans ih.2⟩
  have hbound : ∀ n, |u n| ≤ r ^ n * |u 0| := by
    intro n
    induction n with
    | zero => simp
    | succ k ih =>
      rw [hu k, abs_mul, abs_of_pos (hc0 k), pow_succ]
      calc c k * |u k| ≤ r * (r ^ k * |u 0|) :=
            mul_le_mul (hcr k) ih (abs_nonneg _) hr0.le
        _ = r ^ k * r * |u 0| := by ring
  refine ⟨hmono, hsign, ?_⟩
  have hpow : Tendsto (fun n => r ^ n * |u 0|) atTop (nhds 0) := by
    have h := (tendsto_pow_atTop_nhds_zero_of_lt_one hr0.le hr).mul_const |u 0|
    simpa using h
  exact squeeze_zero (fun n => abs_nonneg _) hbound hpow

/-- The damping factor applied to a scalar velocity component by one tick. -/
theorem damp_factor_bounds (t : ℝ) (h : 0 < t) :
    0 < 1 - 0.9 * min t 1 ∧ 1 - 0.9 * min t 1 < 1 := by
  have h1 : min t 1 ≤ 1 := min_le_right _ _
  have h2 : 0 < min t 1 := lt_min h (by norm_num)
  constructor <;> nlinarith

theorem player_iter_w (dt : ℕ → ℝ) (p : Player) (n : ℕ) :
    (player_iter dt p (n + 1)).w = (1 - 0.9 * min (dt n) 1) * (player_iter dt p n).w := by
  show ((player_iter dt p n).update (dt n)).w = _
  simp only [Player.update]
  ring

theorem player_iter_velx (dt : ℕ → ℝ) (p : Player) (n : ℕ) :
    (player_iter dt p (n + 1)).vel.x
      = (1 - 0.9 * min (dt n) 1) * (player_iter dt p n).vel.x := by
  show ((player_iter dt p n).update (dt n)).vel.x = _
  simp only [Player.update, Vec2.sub_x, Vec2.smul_x]
  ring

theorem player_iter_vely (dt : ℕ → ℝ) (p : Player) (n : ℕ) :
    (player_iter dt p (n + 1)).vel.y
      = (1 - 0.9 * min (dt n) 1) * (player_iter dt p n).vel.y := by
  show ((player_iter dt p n).update (dt n)).vel.y = _
  simp only [Player.update, Vec2.sub_y, Vec2.smul_y]
  ring

/-- Claim C9 (amended): each tick with `dt > 0` scales velocity and angular
velocity by a factor `1 - 0.9 * min(dt, 1)` in `(0, 1)`, so components keep
their sign and magnitudes never grow; along any infinite sequence of updates
whose `dt` values are bounded below by a positive constant, the magnitudes of
the velocity components and the angular velocity tend to zero. -/
theorem c9_amended (eps : ℝ) (heps : 0 < eps) (dt : ℕ → ℝ) (hdt : ∀ n, eps ≤ dt n)
    (p : Player) :
    (∀ t : ℝ, 0 < t → 0 < 1 - 0.9 * min t 1 ∧ 1 - 0.9 * min t 1 < 1) ∧
    (∀ n, (player_iter dt p (n + 1)).vel
        = (1 - 0.9 * min (dt n) 1) • (player_iter dt p n).vel ∧
      (player_iter dt p (n + 1)).w
        = (1 - 0.9 * min (dt n) 1) * (player_iter dt p n).w) ∧
    (∀ n, |(player_iter dt p (n + 1)).vel.x| ≤ |(player_iter dt p n).vel.x| ∧
      |(player_iter dt p (n + 1)).vel.y| ≤ |(player_iter dt p n).vel.y| ∧
      |(player_iter dt p (n + 1)).w| ≤ |(player_iter dt p n).w|) ∧
    (∀ n, ((0 < (player_iter dt p n).w ↔ 0 < p.w) ∧
        ((player_iter dt p n).w < 0 ↔ p.w < 0)) ∧
      ((0 < (player_iter dt p n).vel.x ↔ 0 < p.vel.x) ∧
        ((player_iter dt p n).vel.x < 0 ↔ p.vel.x < 0)) ∧
      ((0 < (player_iter dt p n).vel.y ↔ 0 < p.vel.y) ∧
        ((player_iter dt p n).vel.y < 0 ↔ p.vel.y < 0))) ∧
    (Tendsto (fun n => |(player_iter dt p n).vel.x|) atTop (nhds 0) ∧
      Tendsto (fun n => |(player_iter dt p n).vel.y|) atTop (nhds 0) ∧
      Tendsto (fun n => |(player_iter dt p n).w|) atTop (nhds 0)) := by
  have hr1 : (1 : ℝ) - 0.9 * min eps 1 < 1 := by
    have h2 : 0 < min eps 1 := lt_min heps (by norm_num)
    nlinarith
  have hc0 : ∀ n, 0 < 1 - 0.9 * min (dt n) 1 := fun n =>
    (damp_factor_bounds (dt n) (lt_of_lt_of_le heps (hdt n))).1
  have hcr : ∀ n, 1 - 0.9 * min (dt n) 1 ≤ 1 - 0.9 * min eps 1 := by
    intro n
    have hmin : min eps 1 ≤ min (dt n) 1 := min_le_min (hdt n) le_rfl
    nlinarith
  have hw := scalar_decay (fun n => 1 - 0.9 * min (dt n) 1)
    (fun n => (player_iter dt p n).w) (1 - 0.9 * min eps 1) hr1 hc0 hcr
    (fun n => player_iter_w dt p n)
  have hvx := scalar_decay (fun n => 1 - 0.9 * min (dt n) 1)
    (fun n => (player_iter dt p n).vel.x) (1 - 0.9 * min eps 1) hr1 hc0 hcr
    (fun n => player_iter_velx dt p n)
  have hvy := scalar_decay (fun n => 1 - 0.9 * min (dt n) 1)
    (fun n => (player_iter dt p n).vel.y) (1 - 0.9 * min eps 1) hr1 hc0 hcr
    (fun n => player_iter_vely dt p n)
  refine ⟨damp_factor_bounds, ?_, ?_, ?_, hvx.2.2, hvy.2.2, hw.2.2⟩
  · intro n
    constructor
    · apply Vec2.ext
      · rw [Vec2.smul_x]
        exact player_iter_velx dt p n
      · rw [Vec2.smul_y]
        exact player_iter_vely dt p n
    · exact player_iter_w dt p n
  · intro n
    exact ⟨hvx.1 n, hvy.1 n, hw.1 n⟩
  · intro n
    exact ⟨hw.2.1 n, hvx.2.1 n, hvy.2.1 n⟩

/-- A sequence of positive frame times shrinking fast enough that the total
damping applied stays bounded: with initial angular velocity 2 the angular
velocity after `n` ticks is `1 + (1/2)^n`. -/
def dt_shrinking : ℕ → ℝ :=
  fun n => ((1 / 2 : ℝ) ^ (n + 1) / (1 + (1 / 2 : ℝ) ^ n)) / 0.9

/-- Claim C9 counterexample: it is not true that for every infinite sequence of
positive `dt` the angular-velocity magnitude tends to zero — with the
fast-shrinking sequence `dt_shrinking` and initial angular velocity 2 it stays
at least 1 forever. -/
theorem c9_counterexample :
    ¬ (∀ (dt : ℕ → ℝ), (∀ n, 0 < dt n) → ∀ (p : Player),
      Tendsto (fun n => |(player_iter dt p n).w|) atTop (nhds 0)) := by
  intro hclaim
  have hpos : ∀ n, 0 < dt_shrinking n := by
    intro n
    apply div_pos (div_pos (pow_pos (by norm_num) _) (by positivity)) (by norm_num)
  have hw : ∀ n, (player_iter dt_shrinking ⟨⟨0, 0⟩, ⟨0, 0⟩, 0, 2⟩ n).w
      = 1 + (1 / 2 : ℝ) ^ n := by
    intro n
    induction n with
    | zero => norm_num [player_iter]
    | succ k ih =>
      rw [player_iter_w, ih]
      have hq : (0 : ℝ) < (1 / 2 : ℝ) ^ k := pow_pos (by norm_num) k
      have hmin : min (dt_shrinking k) 1 = dt_shrinking k := by
        apply min_eq_left
        unfold dt_shrinking
        rw [div_le_one (by norm_num)]
        have h1 : (1 / 2 : ℝ) ^ (k + 1) ≤ 1 / 2 := by
          calc (1 / 2 : ℝ) ^ (k + 1) ≤ (1 / 2 : ℝ) ^ 1 :=
                pow_le_pow_of_le_one (by norm_num) (by norm_num) (Nat.le_add_left 1 k)
            _ = 1 / 2 := pow_one _
        have h2 : (1 : ℝ) ≤ 1 + (1 / 2 : ℝ) ^ k := by linarith
        calc (1 / 2 : ℝ) ^ (k + 1) / (1 + (1 / 2 : ℝ) ^ k) ≤ (1 / 2) / 1 :=
              div_le_div₀ (by norm_num) h1 one_pos h2
          _ ≤ 0.9 := by norm_num
      rw [hmin]
      unfold dt_shrinking
      have hne : (1 : ℝ) + (1 / 2 : ℝ) ^ k ≠ 0 := by positivity
      field_simp
      ring
  have htend := hclaim dt_shrinking hpos ⟨⟨0, 0⟩, ⟨0, 0⟩, 0, 2⟩
  obtain ⟨N, hN⟩ := (Metric.tendsto_atTop.mp htend) 1 (by norm_num)
  have h2 := hN N le_rfl
  rw [Real.dist_eq, sub_zero, abs_abs] at h2
  have h3 : (1 : ℝ) ≤ |(player_iter dt_shrinking ⟨⟨0, 0⟩, ⟨0, 0⟩, 0, 2⟩ N).w| := by
    rw [hw N, abs_of_pos (by positivity)]
    have hq : (0 : ℝ) < (1 / 2 : ℝ) ^ N := pow_pos (by norm_num) N
    linarith
  linarith

/-- Claim C9 witness: with a constant `dt = 1` the angular-velocity magnitude
tends to zero. -/
theorem c9_witness :
    Tendsto (fun n => |(player_iter (fun _ => 1) ⟨⟨2, -3⟩, ⟨4, -5⟩, 0, 6⟩ n).w|)
      atTop (nhds 0) :=
  (c9_amended 1 one_pos (fun _ => 1) (fun _ => le_rfl)
    ⟨⟨2, -3⟩, ⟨4, -5⟩, 0, 6⟩).2.2.2.2.2.2

end Race
